import Mathlib

/-!
Verification development for the leiacomigo reading-practice engine.

Strings from the TypeScript source are modelled as lists of Unicode
characters (one entry per code point).  Every definition in the first part
of the file is a direct shallow embedding of a function of the repository:

* normalizeText, wordsMatch, calculateSimilarity, levenshteinDistance and
  extractWords come from the text-matching library (the tiered version of
  wordsMatch, which the specification describes);
* SessionState, initState, applyToken, processSpokenWords, handleRestart
  and progress come from the Reading page component.

JavaScript floating point arithmetic is modelled by exact rationals, and
the dynamic-programming Levenshtein matrix is modelled row by row.
Specification-side definitions (editDistance, similaritySpec,
wordsMatchSpec) are written from the specification text and compared with
the embedded code.
-/

namespace LeiaComigo

/-- Strings of the program, one list entry per Unicode code point. -/
abbrev Str := List Char

/-- Combining diacritical marks, the code-point range 0x300 to 0x36F that
the source removes with its accent-stripping regular expression. -/
def isCombining (c : Char) : Bool :=
  decide (768 ≤ c.toNat ∧ c.toNat ≤ 879)

/-- JavaScript word characters, the regular-expression class backslash-w:
ASCII letters, digits and underscore. -/
def isWordChar (c : Char) : Bool :=
  decide ((97 ≤ c.toNat ∧ c.toNat ≤ 122) ∨ (65 ≤ c.toNat ∧ c.toNat ≤ 90) ∨
    (48 ≤ c.toNat ∧ c.toNat ≤ 57) ∨ c.toNat = 95)

/-- JavaScript whitespace, the regular-expression class backslash-s (also
the character set removed by the trim method). -/
def isSpaceChar (c : Char) : Bool :=
  decide (c.toNat = 32 ∨ (9 ≤ c.toNat ∧ c.toNat ≤ 13) ∨ c.toNat = 160 ∨
    c.toNat = 5760 ∨ (8192 ≤ c.toNat ∧ c.toNat ≤ 8202) ∨ c.toNat = 8232 ∨
    c.toNat = 8233 ∨ c.toNat = 8239 ∨ c.toNat = 8287 ∨ c.toNat = 12288 ∨
    c.toNat = 65279)

/-- Lowercase table for the non-ASCII letters handled by the embedding
(the Latin letters with diacritics that appear in the pt-BR stories);
ASCII uppercase is lowered arithmetically in jsToLower. -/
def lowerPairs : List (Char × Char) :=
  [('Á', 'á'), ('À', 'à'), ('Â', 'â'), ('Ã', 'ã'), ('Ä', 'ä'),
   ('É', 'é'), ('È', 'è'), ('Ê', 'ê'), ('Ë', 'ë'),
   ('Í', 'í'), ('Ì', 'ì'), ('Î', 'î'), ('Ï', 'ï'),
   ('Ó', 'ó'), ('Ò', 'ò'), ('Ô', 'ô'), ('Õ', 'õ'), ('Ö', 'ö'),
   ('Ú', 'ú'), ('Ù', 'ù'), ('Û', 'û'), ('Ü', 'ü'),
   ('Ç', 'ç'), ('Ñ', 'ñ')]

/-- The toLowerCase method of JavaScript strings, modelled on ASCII
arithmetically and on the accented Latin letters by lowerPairs. -/
def jsToLower (c : Char) : Char :=
  if 65 ≤ c.toNat ∧ c.toNat ≤ 90 then Char.ofNat (c.toNat + 32)
  else ((lowerPairs.lookup c).getD c)

/-- Canonical decomposition table for the accented lowercase Latin letters
of the pt-BR alphabet: each maps to its base letter followed by a
combining mark in the range 0x300 to 0x36F, as Unicode NFD prescribes. -/
def nfdPairs : List (Char × List Char) :=
  [('á', ['a', Char.ofNat 769]), ('à', ['a', Char.ofNat 768]),
   ('â', ['a', Char.ofNat 770]), ('ã', ['a', Char.ofNat 771]),
   ('ä', ['a', Char.ofNat 776]),
   ('é', ['e', Char.ofNat 769]), ('è', ['e', Char.ofNat 768]),
   ('ê', ['e', Char.ofNat 770]), ('ë', ['e', Char.ofNat 776]),
   ('í', ['i', Char.ofNat 769]), ('ì', ['i', Char.ofNat 768]),
   ('î', ['i', Char.ofNat 770]), ('ï', ['i', Char.ofNat 776]),
   ('ó', ['o', Char.ofNat 769]), ('ò', ['o', Char.ofNat 768]),
   ('ô', ['o', Char.ofNat 770]), ('õ', ['o', Char.ofNat 771]),
   ('ö', ['o', Char.ofNat 776]),
   ('ú', ['u', Char.ofNat 769]), ('ù', ['u', Char.ofNat 768]),
   ('û', ['u', Char.ofNat 770]), ('ü', ['u', Char.ofNat 776]),
   ('ç', ['c', Char.ofNat 807]), ('ñ', ['n', Char.ofNat 771])]

/-- Unicode NFD normalization of a single character, per nfdPairs;
characters outside the table decompose trivially. -/
def nfdChar (c : Char) : List Char :=
  (nfdPairs.lookup c).getD [c]

/-- The trim method, back half: remove trailing whitespace. -/
def trimEnd (l : Str) : Str :=
  (l.reverse.dropWhile isSpaceChar).reverse

/-- The trim method of JavaScript strings: remove leading and trailing
whitespace. -/
def trim (l : Str) : Str :=
  trimEnd (l.dropWhile isSpaceChar)

/-- normalizeText of the text-matching library: lowercase, NFD-decompose,
strip combining marks, strip characters that are neither word characters
nor whitespace, trim. -/
def normalizeText (s : Str) : Str :=
  trim ((((s.map jsToLower).flatMap nfdChar).filter
    (fun c => !(isCombining c))).filter
    (fun c => isWordChar c || isSpaceChar c))

/-- The classic unit-cost Levenshtein edit distance, written as the
textbook structural recursion: distance to or from the empty string is
the other length, and for two nonempty strings one either keeps equal
head characters or pays one substitution, deletion or insertion.  This is
the specification-side reference definition of the Similarity Scorer. -/
def editDistance : Str → Str → Nat
  | [], ys => ys.length
  | x :: xs, [] => (x :: xs).length
  | x :: xs, y :: ys =>
      if x = y then editDistance xs ys
      else 1 + min (editDistance xs ys)
        (min (editDistance (x :: xs) ys) (editDistance xs (y :: ys)))
termination_by xs ys => xs.length + ys.length
decreasing_by all_goals simp_arith

/-- One inner cell of the source's Levenshtein matrix: the source compares
the current character of str2 with the current character of str1 and takes
either the diagonal value or one plus the minimum of the diagonal, left
and upper neighbours (in the order written in the source). -/
def levCell (c2 a : Char) (diag left up : Nat) : Nat :=
  if c2 = a then diag else min (diag + 1) (min (left + 1) (up + 1))

/-- The inner loop of the source's levenshteinDistance: compute the cells
of one matrix row with column index at least one, walking along str1,
consuming the previous row and threading the value of the cell to the
left. -/
def levRowAux (c2 : Char) : Str → List Nat → Nat → List Nat
  | [], _, _ => []
  | _ :: _, [], _ => []
  | a :: as, diag :: rest, left =>
      let cell := levCell c2 a diag left (rest.headD 0)
      cell :: levRowAux c2 as rest cell

/-- One full matrix row of the source's levenshteinDistance: the column
zero cell holds the row index i, then the inner loop fills the rest. -/
def levRow (c2 : Char) (s1 : Str) (prev : List Nat) (i : Nat) : List Nat :=
  i :: levRowAux c2 s1 prev i

/-- The outer loop of the source's levenshteinDistance: start from row
zero (the numbers 0 to length of str1) and produce one row per character
of str2, keeping the row index in the accumulator. -/
def levFinalRow (s1 s2 : Str) : List Nat :=
  (s2.foldl (fun acc c => (acc.1 + 1, levRow c s1 acc.2 (acc.1 + 1)))
    (0, List.range (s1.length + 1))).2

/-- levenshteinDistance of the text-matching library: the bottom-right
cell of the dynamic-programming matrix, i.e. the last cell of the final
row. -/
def levenshteinDistance (s1 s2 : Str) : Nat :=
  (levFinalRow s1 s2).getLastD 0

/-- calculateSimilarity of the text-matching library, with JavaScript
numbers modelled by exact rationals: 1 for equal strings, 0 when either
is empty, otherwise (longerLength - editDistance) / longerLength where
longer and shorter are chosen by comparing lengths. -/
def calculateSimilarity (str1 str2 : Str) : ℚ :=
  if str1 = str2 then 1
  else if str1.length = 0 ∨ str2.length = 0 then 0
  else
    let longer := if str1.length > str2.length then str1 else str2
    let shorter := if str1.length > str2.length then str2 else str1
    ((longer.length : ℚ) - (levenshteinDistance longer shorter : ℚ)) /
      (longer.length : ℚ)

/-- The absolute difference of two lengths, Math.abs of the integer
difference in the source. -/
def lengthDiffN (a b : Nat) : Nat :=
  ((a : ℤ) - (b : ℤ)).natAbs

/-- wordsMatch of the text-matching library (the tiered version): exact
match on normalized tokens, then a short-word tier (expected length at
most 2, length difference at most 2, similarity at least 0.6), then a
normal tier (length difference at most 2, similarity at least 0.8),
otherwise no match.  The source's guarded early returns are written as a
nested conditional chain; the chain is equivalent because a similarity
below 0.6 is also below 0.8. -/
def wordsMatch (spoken expected : Str) : Bool :=
  let normalizedSpoken := normalizeText spoken
  let normalizedExpected := normalizeText expected
  if normalizedSpoken = normalizedExpected then true
  else
    let lengthDiff := lengthDiffN normalizedSpoken.length normalizedExpected.length
    if normalizedExpected.length ≤ 2 ∧ lengthDiff ≤ 2 ∧
        calculateSimilarity normalizedSpoken normalizedExpected ≥ 3 / 5 then true
    else if lengthDiff ≤ 2 ∧
        calculateSimilarity normalizedSpoken normalizedExpected ≥ 4 / 5 then true
    else false

/-- Split a character list into the maximal runs of non-whitespace
characters, the accumulator holding the current run reversed.  This is
the composition of splitting on runs of whitespace and discarding empty
tokens, as extractWords does. -/
def splitWordsAux : Str → Str → List Str
  | [], acc => if acc = [] then [] else [acc.reverse]
  | c :: rest, acc =>
      if isSpaceChar c then
        if acc = [] then splitWordsAux rest []
        else acc.reverse :: splitWordsAux rest []
      else splitWordsAux rest (c :: acc)

/-- extractWords of the text-matching library: lowercase the transcript,
split on runs of whitespace, keep the nonempty tokens in order. -/
def extractWords (text : Str) : List Str :=
  splitWordsAux (text.map jsToLower) []

/-- All initial segments of a list, shortest first; the analogue of the
column range of the Levenshtein matrix, used to state what each cell of a
matrix row means. -/
def initSegs : Str → List Str
  | [] => [[]]
  | a :: l => [] :: (initSegs l).map (fun t => a :: t)

/-- Edit distance of the reversed strings; the dynamic-programming matrix
of the source computes this function of the prefixes of its arguments,
growing them at the right end. -/
def revDist (xs ys : Str) : Nat :=
  editDistance xs.reverse ys.reverse

/-- Modelled from the spec (4.2 Similarity Scorer): 1 for equal strings,
0 when exactly one is empty, otherwise one minus the classic Levenshtein
distance divided by the longer length. -/
def similaritySpec (a b : Str) : ℚ :=
  if a = b then 1
  else if a.length = 0 ∨ b.length = 0 then 0
  else 1 - (editDistance a b : ℚ) / ((max a.length b.length : ℕ) : ℚ)

/-- Modelled from the spec (4.3 Word Matcher): the tiered acceptance
algorithm, stated with the specification-side similarity scorer. -/
def wordsMatchSpec (spoken expected : Str) : Bool :=
  let ns := normalizeText spoken
  let ne := normalizeText expected
  if ns = ne then true
  else
    let lengthDiff := lengthDiffN ns.length ne.length
    if ne.length ≤ 2 ∧ lengthDiff ≤ 2 ∧ similaritySpec ns ne ≥ 3 / 5 then true
    else if lengthDiff ≤ 2 ∧ similaritySpec ns ne ≥ 4 / 5 then true
    else false

/-- A rational-free reformulation of wordsMatch with the similarity
thresholds cleared of denominators, so that concrete instances reduce
inside the kernel; proved equal to wordsMatch below. -/
def wordsMatchB (spoken expected : Str) : Bool :=
  let ns := normalizeText spoken
  let ne := normalizeText expected
  if ns = ne then true
  else
    let lengthDiff := lengthDiffN ns.length ne.length
    let longer := if ns.length > ne.length then ns else ne
    let shorter := if ns.length > ne.length then ne else ns
    let dist := levenshteinDistance longer shorter
    let ok6 : Bool := decide (0 < ns.length ∧ 0 < ne.length ∧
      3 * longer.length + 5 * dist ≤ 5 * longer.length)
    let ok8 : Bool := decide (0 < ns.length ∧ 0 < ne.length ∧
      4 * longer.length + 5 * dist ≤ 5 * longer.length)
    if ne.length ≤ 2 ∧ lengthDiff ≤ 2 ∧ ok6 = true then true
    else if lengthDiff ≤ 2 ∧ ok8 = true then true
    else false

/-- Per-word display status of the Reading page. -/
inductive WordStatus
  | pending
  | current
  | correct
  | incorrect
deriving DecidableEq, Repr

/-- The mutable state of a reading session: the index of the next
expected word and the per-word status array. -/
structure SessionState where
  cursor : Nat
  statuses : List WordStatus
deriving DecidableEq, Repr

/-- The initial session state of the Reading page: cursor 0 and the
status array marking index 0 current and every other index pending. -/
def initState (words : List Str) : SessionState :=
  ⟨0, (List.range words.length).map
    (fun i => if i = 0 then WordStatus.current else WordStatus.pending)⟩

/-- One iteration of the forEach in processSpokenWords: skip the token
when the working index has passed the end; on a match mark the working
index correct, mark the successor current when it is in bounds and
advance; on a mismatch mark the working index incorrect and keep it.  The
early return of the source callback ends only this iteration, so the fold
over the remaining tokens continues either way. -/
def applyToken (words : List Str) (st : SessionState) (tok : Str) : SessionState :=
  if words.length ≤ st.cursor then st
  else
    let expected := words.getD st.cursor []
    if wordsMatch tok expected then
      let s1 := st.statuses.set st.cursor WordStatus.correct
      let s2 := if st.cursor + 1 < words.length
        then s1.set (st.cursor + 1) WordStatus.current else s1
      ⟨st.cursor + 1, s2⟩
    else
      ⟨st.cursor, st.statuses.set st.cursor WordStatus.incorrect⟩

/-- processSpokenWords of the Reading page (the submit operation of the
specification): extract the tokens of the transcript, give the word at
the cursor a fresh chance when its status is incorrect, then walk the
tokens with a local working cursor, and commit the final working cursor.
The status reads and writes of the source through the React updater queue
are applied in program order. -/
def processSpokenWords (words : List Str) (st : SessionState) (transcript : Str) :
    SessionState :=
  let spokenWords := extractWords transcript
  let retried : SessionState :=
    ⟨st.cursor,
      if st.statuses[st.cursor]? = some WordStatus.incorrect
      then st.statuses.set st.cursor WordStatus.current
      else st.statuses⟩
  spokenWords.foldl (applyToken words) retried

/-- handleRestart of the Reading page (also the body of the reset that
starting a new listening attempt performs): cursor back to 0 and the
status array back to its initial pattern. -/
def handleRestart (words : List Str) (_st : SessionState) : SessionState :=
  initState words

/-- The progress value of the Reading page: (cursor / N) * 100, a
percentage handed to the progress bar. -/
def progress (words : List Str) (st : SessionState) : ℚ :=
  ((st.cursor : ℚ) / (words.length : ℚ)) * 100

/-- The progress fraction of the specification, the displayed percentage
rescaled to [0, 1]. -/
def progressFraction (words : List Str) (st : SessionState) : ℚ :=
  progress words st / 100

/-- The structural invariant of a session state over a fixed target text:
the cursor never exceeds the word count, the status array has one entry
per word, the indices before the cursor are correct, those after it are
pending, and the cursor index (when in bounds) is current or incorrect. -/
def SessionInv (words : List Str) (st : SessionState) : Prop :=
  st.cursor ≤ words.length ∧
  st.statuses.length = words.length ∧
  (∀ i, i < st.cursor → st.statuses[i]? = some WordStatus.correct) ∧
  (∀ i, st.cursor < i → i < words.length → st.statuses[i]? = some WordStatus.pending) ∧
  (st.cursor < words.length →
    st.statuses[st.cursor]? = some WordStatus.current ∨
    st.statuses[st.cursor]? = some WordStatus.incorrect)

/-- The session states reachable from the initial state by submitting
recognizer hypotheses and resetting. -/
inductive Reachable (words : List Str) : SessionState → Prop
  | init : Reachable words (initState words)
  | submit (st : SessionState) (t : Str) :
      Reachable words st → Reachable words (processSpokenWords words st t)
  | restart (st : SessionState) :
      Reachable words st → Reachable words (handleRestart words st)


theorem editDistance_nil_left (ys : Str) : editDistance [] ys = ys.length := by
  simp [editDistance]

theorem editDistance_nil_right (xs : Str) : editDistance xs [] = xs.length := by
  cases xs <;> simp [editDistance]

theorem editDistance_cons_cons (x y : Char) (xs ys : Str) :
    editDistance (x :: xs) (y :: ys) =
      if x = y then editDistance xs ys
      else 1 + min (editDistance xs ys)
        (min (editDistance (x :: xs) ys) (editDistance xs (y :: ys))) := by
  simp [editDistance]

theorem editDistance_snoc_aux :
    ∀ (n : ℕ) (xs ys : Str), xs.length + ys.length ≤ n → ∀ (a b : Char),
      editDistance (xs ++ [a]) (ys ++ [b]) =
        if a = b then editDistance xs ys
        else 1 + min (editDistance xs ys)
          (min (editDistance (xs ++ [a]) ys) (editDistance xs (ys ++ [b]))) := by
  intro n
  induction n with
  | zero =>
      intro xs ys hlen a b
      have hx : xs = [] := by
        cases xs with
        | nil => rfl
        | cons c l => simp at hlen
      have hy : ys = [] := by
        cases ys with
        | nil => rfl
        | cons c l => simp at hlen
      subst hx; subst hy
      simp only [List.nil_append, editDistance_cons_cons]
  | succ n ih =>
      intro xs ys hlen a b
      cases xs with
      | nil =>
          cases ys with
          | nil => simp only [List.nil_append, editDistance_cons_cons]
          | cons y ys' =>
              have h1 := ih [] ys'
                (by simp only [List.length_cons, List.length_nil] at hlen ⊢; omega) a b
              simp only [List.nil_append] at h1 ⊢
              simp only [List.cons_append]
              rw [editDistance_cons_cons a y [] (ys' ++ [b]),
                editDistance_cons_cons a y [] ys', h1]
              simp only [editDistance_nil_left, List.length_append, List.length_cons,
                List.length_nil]
              clear ih hlen h1
              generalize editDistance [a] ys' = e
              by_cases hay : a = y
              · simp only [if_pos hay]
                by_cases hab : a = b
                · simp only [if_pos hab] <;> omega
                · simp only [if_neg hab] <;> omega
              · by_cases hab : a = b
                · simp only [if_neg hay, if_pos hab] <;> omega
                · simp only [if_neg hay, if_neg hab] <;> omega
      | cons x xs' =>
          cases ys with
          | nil =>
              have h1 := ih xs' []
                (by simp only [List.length_cons, List.length_nil] at hlen ⊢; omega) a b
              simp only [List.nil_append] at h1 ⊢
              simp only [List.cons_append]
              rw [editDistance_cons_cons x b (xs' ++ [a]) [],
                editDistance_cons_cons x b xs' [], h1]
              simp only [editDistance_nil_right, List.length_append, List.length_cons,
                List.length_nil]
              clear ih hlen h1
              generalize editDistance xs' [b] = e
              by_cases hxb : x = b
              · simp only [if_pos hxb]
                by_cases hab : a = b
                · simp only [if_pos hab] <;> omega
                · simp only [if_neg hab] <;> omega
              · by_cases hab : a = b
                · simp only [if_neg hxb, if_pos hab] <;> omega
                · simp only [if_neg hxb, if_neg hab] <;> omega
          | cons y ys' =>
              have h1 := ih xs' ys'
                (by simp only [List.length_cons] at hlen ⊢; omega) a b
              have h2 := ih (x :: xs') ys'
                (by simp only [List.length_cons] at hlen ⊢; omega) a b
              have h3 := ih xs' (y :: ys')
                (by simp only [List.length_cons] at hlen ⊢; omega) a b
              simp only [List.cons_append] at h1 h2 h3 ⊢
              rw [editDistance_cons_cons x y (xs' ++ [a]) (ys' ++ [b]),
                editDistance_cons_cons x y xs' ys',
                editDistance_cons_cons x y (xs' ++ [a]) ys',
                editDistance_cons_cons x y xs' (ys' ++ [b]),
                h1, h2, h3]
              clear ih hlen h1 h2 h3
              generalize editDistance (x :: (xs' ++ [a])) ys' = d5
              generalize editDistance (xs' ++ [a]) (y :: ys') = d6
              generalize editDistance (x :: xs') (ys' ++ [b]) = d7
              generalize editDistance xs' (y :: (ys' ++ [b])) = d8
              generalize editDistance (xs' ++ [a]) ys' = d4
              generalize editDistance xs' (ys' ++ [b]) = d9
              generalize editDistance (x :: xs') ys' = d2
              generalize editDistance xs' (y :: ys') = d3
              generalize editDistance xs' ys' = d1
              by_cases hxy : x = y
              · simp only [if_pos hxy]
              · by_cases hab : a = b
                · simp only [if_neg hxy, if_pos hab]
                · simp only [if_neg hxy, if_neg hab]
                  simp only [min_add_add_left]
                  have h : d1 ⊓ (d4 ⊓ d9) ⊓ (d2 ⊓ (d5 ⊓ d7) ⊓ (d3 ⊓ (d6 ⊓ d8))) =
                      d1 ⊓ (d2 ⊓ d3) ⊓ (d4 ⊓ (d5 ⊓ d6) ⊓ (d9 ⊓ (d7 ⊓ d8))) := by
                    refine le_antisymm ?_ ?_ <;>
                      simp only [le_min_iff, min_le_iff] <;> omega
                  rw [h]


theorem editDistance_snoc (xs ys : Str) (a b : Char) :
    editDistance (xs ++ [a]) (ys ++ [b]) =
      if a = b then editDistance xs ys
      else 1 + min (editDistance xs ys)
        (min (editDistance (xs ++ [a]) ys) (editDistance xs (ys ++ [b]))) :=
  editDistance_snoc_aux (xs.length + ys.length) xs ys le_rfl a b

theorem editDistance_reverse_aux :
    ∀ (n : ℕ) (xs ys : Str), xs.length + ys.length ≤ n →
      editDistance xs.reverse ys.reverse = editDistance xs ys := by
  intro n
  induction n with
  | zero =>
      intro xs ys hlen
      have hx : xs = [] := by
        cases xs with
        | nil => rfl
        | cons c l => simp at hlen
      have hy : ys = [] := by
        cases ys with
        | nil => rfl
        | cons c l => simp at hlen
      subst hx; subst hy; rfl
  | succ n ih =>
      intro xs ys hlen
      cases xs with
      | nil =>
          simp only [List.reverse_nil, editDistance_nil_left, List.length_reverse]
      | cons x xs' =>
          cases ys with
          | nil =>
              simp only [List.reverse_nil, editDistance_nil_right, List.length_reverse]
          | cons y ys' =>
              have h1 := ih xs' ys'
                (by simp only [List.length_cons] at hlen ⊢; omega)
              have h2 := ih (x :: xs') ys'
                (by simp only [List.length_cons] at hlen ⊢; omega)
              have h3 := ih xs' (y :: ys')
                (by simp only [List.length_cons] at hlen ⊢; omega)
              rw [List.reverse_cons, List.reverse_cons, editDistance_snoc,
                editDistance_cons_cons]
              rw [List.reverse_cons] at h2
              rw [List.reverse_cons] at h3
              rw [h1, h2, h3]

theorem editDistance_reverse (xs ys : Str) :
    editDistance xs.reverse ys.reverse = editDistance xs ys :=
  editDistance_reverse_aux (xs.length + ys.length) xs ys le_rfl

theorem editDistance_comm_aux :
    ∀ (n : ℕ) (xs ys : Str), xs.length + ys.length ≤ n →
      editDistance xs ys = editDistance ys xs := by
  intro n
  induction n with
  | zero =>
      intro xs ys hlen
      have hx : xs = [] := by
        cases xs with
        | nil => rfl
        | cons c l => simp at hlen
      have hy : ys = [] := by
        cases ys with
        | nil => rfl
        | cons c l => simp at hlen
      subst hx; subst hy; rfl
  | succ n ih =>
      intro xs ys hlen
      cases xs with
      | nil => simp only [editDistance_nil_left, editDistance_nil_right]
      | cons x xs' =>
          cases ys with
          | nil => simp only [editDistance_nil_left, editDistance_nil_right]
          | cons y ys' =>
              have h1 := ih xs' ys'
                (by simp only [List.length_cons] at hlen ⊢; omega)
              have h2 := ih (x :: xs') ys'
                (by simp only [List.length_cons] at hlen ⊢; omega)
              have h3 := ih xs' (y :: ys')
                (by simp only [List.length_cons] at hlen ⊢; omega)
              rw [editDistance_cons_cons, editDistance_cons_cons, h1, h2, h3]
              by_cases hxy : x = y
              · simp only [hxy, eq_self_iff_true, if_true]
              · rw [if_neg hxy, if_neg (fun h => hxy h.symm)]
                generalize editDistance ys' xs' = d1
                generalize editDistance ys' (x :: xs') = d2
                generalize editDistance (y :: ys') xs' = d3
                omega

theorem editDistance_comm (xs ys : Str) :
    editDistance xs ys = editDistance ys xs :=
  editDistance_comm_aux (xs.length + ys.length) xs ys le_rfl

theorem editDistance_le_max_aux :
    ∀ (n : ℕ) (xs ys : Str), xs.length + ys.length ≤ n →
      editDistance xs ys ≤ max xs.length ys.length := by
  intro n
  induction n with
  | zero =>
      intro xs ys hlen
      have hx : xs = [] := by
        cases xs with
        | nil => rfl
        | cons c l => simp at hlen
      have hy : ys = [] := by
        cases ys with
        | nil => rfl
        | cons c l => simp at hlen
      subst hx; subst hy; simp [editDistance]
  | succ n ih =>
      intro xs ys hlen
      cases xs with
      | nil => simp only [editDistance_nil_left, List.length_nil]; omega
      | cons x xs' =>
          cases ys with
          | nil => simp only [editDistance_nil_right, List.length_nil]; omega
          | cons y ys' =>
              have h1 := ih xs' ys'
                (by simp only [List.length_cons] at hlen ⊢; omega)
              rw [editDistance_cons_cons]
              by_cases hxy : x = y
              · rw [if_pos hxy]
                simp only [List.length_cons] at h1 ⊢
                omega
              · rw [if_neg hxy]
                generalize hq : editDistance (x :: xs') ys' = d2
                generalize hr : editDistance xs' (y :: ys') = d3
                simp only [List.length_cons] at h1 ⊢
                omega

theorem editDistance_le_max (xs ys : Str) :
    editDistance xs ys ≤ max xs.length ys.length :=
  editDistance_le_max_aux (xs.length + ys.length) xs ys le_rfl



theorem revDist_nil_left (q : Str) : revDist [] q = q.length := by
  simp [revDist, editDistance_nil_left]

theorem revDist_nil_right (p : Str) : revDist p [] = p.length := by
  simp [revDist, editDistance_nil_right]

theorem revDist_snoc_snoc (p q : Str) (a b : Char) :
    revDist (p ++ [a]) (q ++ [b]) =
      if a = b then revDist p q
      else 1 + min (revDist p q)
        (min (revDist (p ++ [a]) q) (revDist p (q ++ [b]))) := by
  simp only [revDist, List.reverse_append, List.reverse_cons, List.reverse_nil,
    List.nil_append, List.cons_append]
  rw [editDistance_cons_cons]

theorem initSegs_eq_cons (l : Str) : initSegs l = [] :: (initSegs l).tail := by
  cases l <;> rfl

theorem initSegs_ne_nil (l : Str) : initSegs l ≠ [] := by
  cases l <;> simp [initSegs]

theorem levRowAux_spec (c2 : Char) (v : Str) :
    ∀ (as done : Str),
      levRowAux c2 as ((initSegs as).map (fun t => revDist (done ++ t) v))
          (revDist done (v ++ [c2]))
        = ((initSegs as).tail).map (fun t => revDist (done ++ t) (v ++ [c2])) := by
  intro as
  induction as with
  | nil => intro done; rfl
  | cons a as' ih =>
      intro done
      simp only [initSegs, List.map_cons, List.map_map, List.tail_cons]
      rw [levRowAux]
      have hrest : ((initSegs as').map ((fun t => revDist (done ++ t) v) ∘ (fun t => a :: t)))
          = (initSegs as').map (fun t => revDist (done ++ [a] ++ t) v) := by
        apply List.map_congr_left
        intro t _
        show revDist (done ++ (a :: t)) v = revDist (done ++ [a] ++ t) v
        rw [List.append_cons]
      rw [hrest]
      have hhead : ((initSegs as').map (fun t => revDist (done ++ [a] ++ t) v)).headD 0
          = revDist (done ++ [a]) v := by
        rw [initSegs_eq_cons as', List.map_cons, List.headD_cons]
        show revDist (done ++ [a] ++ []) v = revDist (done ++ [a]) v
        rw [List.append_nil]
      have hcell : levCell c2 a (revDist (done ++ []) v) (revDist done (v ++ [c2]))
            (((initSegs as').map (fun t => revDist (done ++ [a] ++ t) v)).headD 0)
          = revDist (done ++ [a]) (v ++ [c2]) := by
        rw [hhead, List.append_nil]
        rw [revDist_snoc_snoc, levCell]
        by_cases hac : c2 = a
        · rw [if_pos hac, if_pos hac.symm]
        · rw [if_neg hac, if_neg (fun h => hac h.symm)]
          generalize revDist done v = d1
          generalize revDist (done ++ [a]) v = d2
          generalize revDist done (v ++ [c2]) = d3
          omega
      rw [hcell, ih (done ++ [a])]
      have hrhs : ((initSegs as').map ((fun t => revDist (done ++ t) (v ++ [c2])) ∘
            (fun t => a :: t)))
          = (initSegs as').map (fun t => revDist (done ++ [a] ++ t) (v ++ [c2])) := by
        apply List.map_congr_left
        intro t _
        show revDist (done ++ (a :: t)) (v ++ [c2]) = revDist (done ++ [a] ++ t) (v ++ [c2])
        rw [List.append_cons]
      rw [hrhs]
      conv_rhs => rw [initSegs_eq_cons as']
      rw [List.map_cons]
      congr 1
      show revDist (done ++ [a]) (v ++ [c2]) = revDist (done ++ [a] ++ []) (v ++ [c2])
      rw [List.append_nil]


theorem levRow_spec (c : Char) (s1 v : Str) :
    levRow c s1 ((initSegs s1).map (fun t => revDist t v)) (v.length + 1)
      = (initSegs s1).map (fun t => revDist t (v ++ [c])) := by
  rw [levRow]
  have hs := levRowAux_spec c v s1 []
  simp only [List.nil_append] at hs
  have harg : revDist [] (v ++ [c]) = v.length + 1 := by
    rw [revDist_nil_left, List.length_append, List.length_cons, List.length_nil]
  rw [harg] at hs
  rw [hs]
  conv_rhs => rw [initSegs_eq_cons s1]
  rw [List.map_cons]
  congr 1
  show v.length + 1 = revDist [] (v ++ [c])
  rw [harg]

theorem levFinalRow_spec (s1 : Str) :
    ∀ (rest v : Str),
      (rest.foldl (fun acc c => (acc.1 + 1, levRow c s1 acc.2 (acc.1 + 1)))
        (v.length, (initSegs s1).map (fun t => revDist t v))).2
      = (initSegs s1).map (fun t => revDist t (v ++ rest)) := by
  intro rest
  induction rest with
  | nil =>
      intro v
      simp only [List.foldl_nil, List.append_nil]
  | cons c rest' ih =>
      intro v
      rw [List.foldl_cons]
      have hstep : ((v.length, (initSegs s1).map (fun t => revDist t v)).1 + 1,
            levRow c s1 (v.length, (initSegs s1).map (fun t => revDist t v)).2
              ((v.length, (initSegs s1).map (fun t => revDist t v)).1 + 1))
          = ((v ++ [c]).length, (initSegs s1).map (fun t => revDist t (v ++ [c]))) := by
        have h1 : (v ++ [c]).length = v.length + 1 := by
          rw [List.length_append, List.length_cons, List.length_nil]
        show (v.length + 1,
            levRow c s1 ((initSegs s1).map (fun t => revDist t v)) (v.length + 1))
          = ((v ++ [c]).length, (initSegs s1).map (fun t => revDist t (v ++ [c])))
        rw [levRow_spec, h1]
      rw [hstep, ih (v ++ [c])]
      rw [List.append_cons v c rest']


theorem initSegs_map_length :
    ∀ l : Str, (initSegs l).map List.length = List.range (l.length + 1) := by
  intro l
  induction l with
  | nil => rfl
  | cons a l' ih =>
      simp only [initSegs, List.map_cons, List.map_map, List.length_cons]
      rw [List.range_succ_eq_map]
      congr 1
      · rw [← ih, List.map_map]
        apply List.map_congr_left
        intro t _
        simp [Function.comp, Nat.succ_eq_add_one]

theorem initSegs_map_getLastD :
    ∀ (l p v : Str) (d : ℕ),
      ((initSegs l).map (fun t => revDist (p ++ t) v)).getLastD d = revDist (p ++ l) v := by
  intro l
  induction l with
  | nil => intro p v d; rfl
  | cons a l' ih =>
      intro p v d
      simp only [initSegs, List.map_cons, List.map_map, List.getLastD_cons]
      have hcomp : ((initSegs l').map ((fun t => revDist (p ++ t) v) ∘ (fun t => a :: t)))
          = (initSegs l').map (fun t => revDist ((p ++ [a]) ++ t) v) := by
        apply List.map_congr_left
        intro t _
        show revDist (p ++ (a :: t)) v = revDist (p ++ [a] ++ t) v
        rw [List.append_cons]
      rw [hcomp, ih (p ++ [a])]
      rw [List.append_cons p a l']

theorem levenshteinDistance_eq_editDistance (s1 s2 : Str) :
    levenshteinDistance s1 s2 = editDistance s1 s2 := by
  have h0 : (initSegs s1).map (fun t => revDist t []) = List.range (s1.length + 1) := by
    rw [← initSegs_map_length s1]
    apply List.map_congr_left
    intro t _
    rw [revDist_nil_right]
  have hfold := levFinalRow_spec s1 s2 []
  simp only [List.length_nil, List.nil_append] at hfold
  rw [h0] at hfold
  have hlast : (levFinalRow s1 s2).getLastD 0 = revDist s1 s2 := by
    rw [levFinalRow, hfold]
    have := initSegs_map_getLastD s1 [] s2 0
    simp only [List.nil_append] at this
    exact this
  rw [levenshteinDistance, hlast, revDist, ← editDistance_reverse s1 s2]


theorem calculateSimilarity_eq (a b : Str) :
    calculateSimilarity a b = similaritySpec a b := by
  rw [calculateSimilarity, similaritySpec]
  by_cases hab : a = b
  · rw [if_pos hab, if_pos hab]
  · rw [if_neg hab, if_neg hab]
    by_cases hz : a.length = 0 ∨ b.length = 0
    · rw [if_pos hz, if_pos hz]
    · rw [if_neg hz, if_neg hz]
      push_neg at hz
      have ha0 : a.length ≠ 0 := hz.1
      have hb0 : b.length ≠ 0 := hz.2
      by_cases hgt : a.length > b.length
      · simp only [if_pos hgt]
        rw [levenshteinDistance_eq_editDistance]
        have hmax : max a.length b.length = a.length := max_eq_left (le_of_lt hgt)
        rw [hmax]
        have hL : ((a.length : ℚ)) ≠ 0 := Nat.cast_ne_zero.mpr ha0
        rw [sub_div, div_self hL]
      · simp only [if_neg hgt]
        rw [levenshteinDistance_eq_editDistance, editDistance_comm b a]
        have hmax : max a.length b.length = b.length :=
          max_eq_right (Nat.le_of_not_lt hgt)
        rw [hmax]
        have hL : ((b.length : ℚ)) ≠ 0 := Nat.cast_ne_zero.mpr hb0
        rw [sub_div, div_self hL]

theorem editDistance_cast_le_max (a b : Str) (ha : a.length ≠ 0) (hb : b.length ≠ 0) :
    ((editDistance a b : ℚ)) / ((max a.length b.length : ℕ) : ℚ) ≤ 1 := by
  have hmax : 0 < max a.length b.length := by omega
  rw [div_le_one (by exact_mod_cast hmax)]
  exact_mod_cast editDistance_le_max a b

theorem similaritySpec_nonneg (a b : Str) : 0 ≤ similaritySpec a b := by
  rw [similaritySpec]
  by_cases hab : a = b
  · rw [if_pos hab]; norm_num
  · rw [if_neg hab]
    by_cases hz : a.length = 0 ∨ b.length = 0
    · rw [if_pos hz]
    · rw [if_neg hz]
      push_neg at hz
      have := editDistance_cast_le_max a b hz.1 hz.2
      linarith

theorem similaritySpec_le_one (a b : Str) : similaritySpec a b ≤ 1 := by
  rw [similaritySpec]
  by_cases hab : a = b
  · rw [if_pos hab]
  · rw [if_neg hab]
    by_cases hz : a.length = 0 ∨ b.length = 0
    · rw [if_pos hz]; norm_num
    · rw [if_neg hz]
      have hd : (0 : ℚ) ≤ (editDistance a b : ℚ) / ((max a.length b.length : ℕ) : ℚ) := by
        apply div_nonneg <;> positivity
      linarith


theorem calcSim_ge_iff (a b : Str) (hab : a ≠ b) (n m : ℕ) (hn : 0 < n) (hm : 0 < m) :
    ((n : ℚ) / (m : ℚ) ≤ calculateSimilarity a b) ↔
      (0 < a.length ∧ 0 < b.length ∧
        n * (if a.length > b.length then a else b).length +
          m * levenshteinDistance (if a.length > b.length then a else b)
            (if a.length > b.length then b else a) ≤
        m * (if a.length > b.length then a else b).length) := by
  rw [calculateSimilarity, if_neg hab]
  by_cases hz : a.length = 0 ∨ b.length = 0
  · rw [if_pos hz]
    have hpos : (0 : ℚ) < (n : ℚ) / (m : ℚ) := by
      apply div_pos <;> exact_mod_cast (by assumption)
    constructor
    · intro h; exact absurd (lt_of_lt_of_le hpos h) (lt_irrefl 0)
    · rintro ⟨ha, hb, -⟩
      rcases hz with h0 | h0 <;> omega
  · rw [if_neg hz]
    push_neg at hz
    obtain ⟨ha, hb⟩ := hz
    by_cases hgt : a.length > b.length
    · simp only [if_pos hgt]
      have hL : (0 : ℚ) < (a.length : ℚ) := by exact_mod_cast Nat.pos_of_ne_zero ha
      have hm' : (0 : ℚ) < (m : ℚ) := by exact_mod_cast hm
      rw [div_le_div_iff hm' hL]
      constructor
      · intro h
        refine ⟨Nat.pos_of_ne_zero ha, Nat.pos_of_ne_zero hb, ?_⟩
        have hq : (n : ℚ) * a.length + m * levenshteinDistance a b
            ≤ m * a.length := by nlinarith
        exact_mod_cast hq
      · rintro ⟨-, -, h⟩
        have hq : (n : ℚ) * a.length + m * levenshteinDistance a b
            ≤ m * a.length := by exact_mod_cast h
        nlinarith
    · simp only [if_neg hgt]
      have hL : (0 : ℚ) < (b.length : ℚ) := by exact_mod_cast Nat.pos_of_ne_zero hb
      have hm' : (0 : ℚ) < (m : ℚ) := by exact_mod_cast hm
      rw [div_le_div_iff hm' hL]
      constructor
      · intro h
        refine ⟨Nat.pos_of_ne_zero ha, Nat.pos_of_ne_zero hb, ?_⟩
        have hq : (n : ℚ) * b.length + m * levenshteinDistance b a
            ≤ m * b.length := by nlinarith
        exact_mod_cast hq
      · rintro ⟨-, -, h⟩
        have hq : (n : ℚ) * b.length + m * levenshteinDistance b a
            ≤ m * b.length := by exact_mod_cast h
        nlinarith

theorem wordsMatch_eq_wordsMatchB (s e : Str) :
    wordsMatch s e = wordsMatchB s e := by
  rw [wordsMatch, wordsMatchB]
  by_cases h : normalizeText s = normalizeText e
  · rw [if_pos h, if_pos h]
  · rw [if_neg h, if_neg h]
    have h6 := calcSim_ge_iff (normalizeText s) (normalizeText e) h 3 5
      (by norm_num) (by norm_num)
    have h8 := calcSim_ge_iff (normalizeText s) (normalizeText e) h 4 5
      (by norm_num) (by norm_num)
    push_cast at h6 h8
    refine if_congr ?_ rfl (if_congr ?_ rfl rfl)
    · refine and_congr_right fun _ => and_congr_right fun _ => ?_
      rw [ge_iff_le, decide_eq_true_eq]
      exact h6
    · refine and_congr_right fun _ => ?_
      rw [ge_iff_le, decide_eq_true_eq]
      exact h8

theorem wordsMatch_eq_wordsMatchSpec (s e : Str) :
    wordsMatch s e = wordsMatchSpec s e := by
  rw [wordsMatch, wordsMatchSpec]
  simp only [calculateSimilarity_eq]


theorem applyToken_inv (words : List Str) (tok : Str) (st : SessionState)
    (h : SessionInv words st) : SessionInv words (applyToken words st tok) := by
  obtain ⟨hc, hlen, hcorr, hpend, hcur⟩ := h
  simp only [applyToken]
  split_ifs with hge hm hlt <;> dsimp only [SessionInv]
  · exact ⟨hc, hlen, hcorr, hpend, hcur⟩
  · refine ⟨by omega, by simpa [List.length_set] using hlen, ?_, ?_, ?_⟩
    · intro i hi
      rcases Nat.lt_succ_iff_lt_or_eq.mp hi with hi' | rfl
      · rw [List.getElem?_set_ne (by omega), List.getElem?_set_ne (by omega)]
        exact hcorr i hi'
      · rw [List.getElem?_set_ne (by omega), List.getElem?_set_self (by omega)]
    · intro i hgt hiN
      rw [List.getElem?_set_ne (by omega), List.getElem?_set_ne (by omega)]
      exact hpend i (by omega) hiN
    · intro _
      left
      rw [List.getElem?_set_self (by simp [List.length_set]; omega)]
  · refine ⟨by omega, by simpa [List.length_set] using hlen, ?_, ?_, ?_⟩
    · intro i hi
      rcases Nat.lt_succ_iff_lt_or_eq.mp hi with hi' | rfl
      · rw [List.getElem?_set_ne (by omega)]
        exact hcorr i hi'
      · rw [List.getElem?_set_self (by omega)]
    · intro i hgt hiN
      exact absurd hiN (by omega)
    · intro hlt'
      exact absurd hlt' hlt
  · refine ⟨hc, by simpa [List.length_set] using hlen, ?_, ?_, ?_⟩
    · intro i hi
      rw [List.getElem?_set_ne (by omega)]
      exact hcorr i hi
    · intro i hgt hiN
      rw [List.getElem?_set_ne (by omega)]
      exact hpend i hgt hiN
    · intro _
      right
      rw [List.getElem?_set_self (by omega)]

theorem retried_inv (words : List Str) (st : SessionState) (h : SessionInv words st) :
    SessionInv words
      ⟨st.cursor,
        if st.statuses[st.cursor]? = some WordStatus.incorrect
        then st.statuses.set st.cursor WordStatus.current
        else st.statuses⟩ := by
  obtain ⟨hc, hlen, hcorr, hpend, hcur⟩ := h
  dsimp only [SessionInv]
  split_ifs with hinc
  · refine ⟨hc, by simpa [List.length_set] using hlen, ?_, ?_, ?_⟩
    · intro i hi
      rw [List.getElem?_set_ne (by omega)]
      exact hcorr i hi
    · intro i hgt hiN
      rw [List.getElem?_set_ne (by omega)]
      exact hpend i hgt hiN
    · intro hltN
      left
      rw [List.getElem?_set_self (by omega)]
  · exact ⟨hc, hlen, hcorr, hpend, hcur⟩

theorem foldl_applyToken_inv (words : List Str) :
    ∀ (toks : List Str) (st : SessionState), SessionInv words st →
      SessionInv words (toks.foldl (applyToken words) st) := by
  intro toks
  induction toks with
  | nil => intro st h; exact h
  | cons t ts ih =>
      intro st h
      rw [List.foldl_cons]
      exact ih _ (applyToken_inv words t st h)

theorem initState_inv (words : List Str) : SessionInv words (initState words) := by
  refine ⟨Nat.zero_le _, by simp [initState], ?_, ?_, ?_⟩
  · intro i hi
    exact absurd hi (Nat.not_lt_zero i)
  · intro i hgt hiN
    show ((List.range words.length).map
      (fun i => if i = 0 then WordStatus.current else WordStatus.pending))[i]? = _
    rw [List.getElem?_map, List.getElem?_range hiN]
    show some (if i = 0 then WordStatus.current else WordStatus.pending)
      = some WordStatus.pending
    rw [if_neg (by omega)]
  · intro h0
    left
    show ((List.range words.length).map
      (fun i => if i = 0 then WordStatus.current else WordStatus.pending))[0]? = _
    rw [List.getElem?_map, List.getElem?_range (show 0 < words.length from h0)]
    show some (if 0 = 0 then WordStatus.current else WordStatus.pending)
      = some WordStatus.current
    rw [if_pos rfl]

theorem reachable_inv (words : List Str) (st : SessionState)
    (h : Reachable words st) : SessionInv words st := by
  induction h with
  | init => exact initState_inv words
  | submit st' t _ ih =>
      simp only [processSpokenWords]
      exact foldl_applyToken_inv words (extractWords t) _ (retried_inv words st' ih)
  | restart st' _ _ => exact initState_inv words


theorem applyToken_frame (words : List Str) (st : SessionState) (tok : Str) :
    st.cursor ≤ (applyToken words st tok).cursor ∧
    ∀ i, i < st.cursor → (applyToken words st tok).statuses[i]? = st.statuses[i]? := by
  simp only [applyToken]
  split_ifs with hge hm hlt <;> (try dsimp only)
  · exact ⟨le_rfl, fun i _ => rfl⟩
  · refine ⟨by omega, ?_⟩
    intro i hi
    rw [List.getElem?_set_ne (by omega), List.getElem?_set_ne (by omega)]
  · refine ⟨by omega, ?_⟩
    intro i hi
    rw [List.getElem?_set_ne (by omega)]
  · refine ⟨le_rfl, ?_⟩
    intro i hi
    rw [List.getElem?_set_ne (by omega)]

theorem foldl_applyToken_frame (words : List Str) :
    ∀ (toks : List Str) (st : SessionState),
      st.cursor ≤ (toks.foldl (applyToken words) st).cursor ∧
      ∀ i, i < st.cursor →
        (toks.foldl (applyToken words) st).statuses[i]? = st.statuses[i]? := by
  intro toks
  induction toks with
  | nil => intro st; exact ⟨le_rfl, fun i _ => rfl⟩
  | cons t ts ih =>
      intro st
      rw [List.foldl_cons]
      obtain ⟨h1, h2⟩ := applyToken_frame words st t
      obtain ⟨h3, h4⟩ := ih (applyToken words st t)
      refine ⟨le_trans h1 h3, ?_⟩
      intro i hi
      rw [h4 i (lt_of_lt_of_le hi h1), h2 i hi]

theorem processSpokenWords_frame (words : List Str) (st : SessionState) (t : Str) :
    st.cursor ≤ (processSpokenWords words st t).cursor ∧
    ∀ i, i < st.cursor →
      (processSpokenWords words st t).statuses[i]? = st.statuses[i]? := by
  simp only [processSpokenWords]
  obtain ⟨h3, h4⟩ := foldl_applyToken_frame words (extractWords t)
    ⟨st.cursor,
      if st.statuses[st.cursor]? = some WordStatus.incorrect
      then st.statuses.set st.cursor WordStatus.current
      else st.statuses⟩
  refine ⟨h3, ?_⟩
  intro i hi
  rw [h4 i hi]
  dsimp only
  split_ifs with hinc
  · rw [List.getElem?_set_ne (by omega)]
  · rfl

theorem processSpokenWords_complete_noop (words : List Str) (st : SessionState)
    (t : Str) (h : Reachable words st) (hc : st.cursor = words.length) :
    processSpokenWords words st t = st := by
  obtain ⟨-, hlen, -, -, -⟩ := reachable_inv words st h
  have hget : st.statuses[st.cursor]? = none := by
    rw [List.getElem?_eq_none]
    omega
  have hskip : ∀ toks : List Str, toks.foldl (applyToken words) st = st := by
    intro toks
    induction toks with
    | nil => rfl
    | cons t' ts ih =>
        rw [List.foldl_cons]
        have happ : applyToken words st t' = st := by
          simp only [applyToken]
          rw [if_pos (by omega)]
        rw [happ, ih]
  simp only [processSpokenWords, hget]
  rw [if_neg (by simp)]
  exact hskip _


theorem count_current_of_inv (words : List Str) (st : SessionState)
    (h : SessionInv words st) (hc : st.cursor < words.length) :
    st.statuses.count WordStatus.current =
      if st.statuses[st.cursor]? = some WordStatus.current then 1 else 0 := by
  obtain ⟨-, hlen, hcorr, hpend, -⟩ := h
  have hclen : st.cursor < st.statuses.length := by omega
  have htake : (st.statuses.take st.cursor).count WordStatus.current = 0 := by
    rw [List.count_eq_zero]
    intro hmem
    obtain ⟨i, hi⟩ := List.mem_iff_getElem?.mp hmem
    have hilen : i < (st.statuses.take st.cursor).length := by
      by_contra hge
      rw [List.getElem?_eq_none (by omega)] at hi
      exact Option.noConfusion hi
    have hic : i < st.cursor := by
      rw [List.length_take] at hilen
      omega
    rw [List.getElem?_take_of_lt hic, hcorr i hic] at hi
    exact WordStatus.noConfusion (Option.some.inj hi)
  have hdropc : (st.statuses.drop (st.cursor + 1)).count WordStatus.current = 0 := by
    rw [List.count_eq_zero]
    intro hmem
    obtain ⟨i, hi⟩ := List.mem_iff_getElem?.mp hmem
    rw [List.getElem?_drop] at hi
    by_cases hlt : st.cursor + 1 + i < words.length
    · rw [hpend (st.cursor + 1 + i) (by omega) hlt] at hi
      exact WordStatus.noConfusion (Option.some.inj hi)
    · rw [List.getElem?_eq_none (by omega)] at hi
      exact Option.noConfusion hi
  have hsplit : st.statuses =
      st.statuses.take st.cursor ++
        st.statuses[st.cursor] :: st.statuses.drop (st.cursor + 1) := by
    conv_lhs => rw [← List.take_append_drop st.cursor st.statuses]
    rw [List.drop_eq_getElem_cons hclen]
  conv_lhs => rw [hsplit]
  rw [List.count_append, List.count_cons, htake, hdropc]
  rw [List.getElem?_eq_getElem hclen]
  by_cases hcur : st.statuses[st.cursor] = WordStatus.current
  · simp [hcur]
  · simp [hcur]


/-- C1: the specification says that after the first mismatching token a
submission stops processing and the state equals the state at the first
mismatch, with at most one rejection.  The code contradicts this (and its
own comment saying it breaks out of the forEach): the early return only
skips one iteration, so the tokens after the mismatch are still processed
and can advance the cursor.  Concretely, submitting the hypothesis
"abcdef era uma" against the target text era uma from the initial state
ends at cursor 2 with both words correct instead of stopping at cursor 0
with the first word incorrect. -/
theorem submitProcessesTokensPastMismatch :
    processSpokenWords [['e','r','a'], ['u','m','a']]
        (initState [['e','r','a'], ['u','m','a']])
        ['a','b','c','d','e','f',' ','e','r','a',' ','u','m','a']
      = ⟨2, [WordStatus.correct, WordStatus.correct]⟩ ∧
    processSpokenWords [['e','r','a'], ['u','m','a']]
        (initState [['e','r','a'], ['u','m','a']])
        ['a','b','c','d','e','f',' ','e','r','a',' ','u','m','a']
      ≠ ⟨0, [WordStatus.incorrect, WordStatus.pending]⟩ := by
  constructor
  · decide
  · decide

/-- C2 (counterexample): the claimed invariant includes that exactly one
index has status current whenever the cursor is in bounds, but after a
rejected submission the reachable state has the cursor index incorrect
and no index current at all. -/
theorem exactlyOneCurrentCounterexample :
    Reachable [['e','r','a'], ['u','m','a']]
      ⟨0, [WordStatus.incorrect, WordStatus.pending]⟩ ∧
    (0 : ℕ) < ([['e','r','a'], ['u','m','a']] : List Str).length ∧
    ([WordStatus.incorrect, WordStatus.pending] : List WordStatus).count
      WordStatus.current = 0 := by
  refine ⟨?_, by decide, by decide⟩
  have h1 : processSpokenWords [['e','r','a'], ['u','m','a']]
      (initState [['e','r','a'], ['u','m','a']]) ['a','b','c','d','e','f']
      = ⟨0, [WordStatus.incorrect, WordStatus.pending]⟩ := by decide
  rw [← h1]
  exact Reachable.submit _ _ Reachable.init

/-- C2 (amended): in every reachable state with the cursor in bounds,
all indices before the cursor are correct, all indices after it are
pending, the cursor index is current or incorrect and never correct, and
the number of current indices is one when the cursor index is current and
zero when it is incorrect (so exactly one index is current unless a
rejection is pending at the cursor). -/
theorem statusArrayInvariant (words : List Str) (st : SessionState)
    (h : Reachable words st) (hc : st.cursor < words.length) :
    (∀ i, i < st.cursor → st.statuses[i]? = some WordStatus.correct) ∧
    (∀ i, st.cursor < i → i < words.length →
      st.statuses[i]? = some WordStatus.pending) ∧
    (st.statuses[st.cursor]? = some WordStatus.current ∨
      st.statuses[st.cursor]? = some WordStatus.incorrect) ∧
    st.statuses[st.cursor]? ≠ some WordStatus.correct ∧
    st.statuses.count WordStatus.current =
      (if st.statuses[st.cursor]? = some WordStatus.current then 1 else 0) := by
  obtain ⟨-, hlen, hcorr, hpend, hcur⟩ := reachable_inv words st h
  refine ⟨hcorr, hpend, hcur hc, ?_,
    count_current_of_inv words st (reachable_inv words st h) hc⟩
  rcases hcur hc with h1 | h1 <;> rw [h1] <;> intro hq <;>
    exact WordStatus.noConfusion (Option.some.inj hq)

/-- Witness for the amended C2 at the initial state of a two-word text. -/
theorem statusArrayInvariant_witness :
    ((initState [['e','r','a'], ['u','m','a']]).statuses[0]? =
        some WordStatus.current ∨
      (initState [['e','r','a'], ['u','m','a']]).statuses[0]? =
        some WordStatus.incorrect) ∧
    (initState [['e','r','a'], ['u','m','a']]).statuses.count WordStatus.current =
      (if (initState [['e','r','a'], ['u','m','a']]).statuses[0]? =
          some WordStatus.current then 1 else 0) := by
  obtain ⟨-, -, h3, -, h5⟩ := statusArrayInvariant [['e','r','a'], ['u','m','a']]
    (initState [['e','r','a'], ['u','m','a']]) Reachable.init (by decide)
  exact ⟨h3, h5⟩

/-- C4: the progress fraction shown by the page is the displayed percent
value rescaled by 100; it equals cursor divided by the number of words
and lies in the unit interval for every reachable state of a nonempty
target text. -/
theorem progressFractionUnitInterval (words : List Str) (st : SessionState)
    (h : Reachable words st) (hN : 1 ≤ words.length) :
    progressFraction words st = (st.cursor : ℚ) / (words.length : ℚ) ∧
    0 ≤ progressFraction words st ∧ progressFraction words st ≤ 1 := by
  obtain ⟨hc, -, -, -, -⟩ := reachable_inv words st h
  have hNq : (0 : ℚ) < (words.length : ℚ) := by exact_mod_cast hN
  have heq : progressFraction words st = (st.cursor : ℚ) / (words.length : ℚ) := by
    rw [progressFraction, progress, mul_div_assoc]
    norm_num
  refine ⟨heq, ?_, ?_⟩
  · rw [heq]
    positivity
  · rw [heq, div_le_one hNq]
    exact_mod_cast hc

/-- Witness for C4 at the initial state of a one-word text. -/
theorem progressFractionUnitInterval_witness :
    progressFraction [['a']] (initState [['a']]) =
      ((initState [['a']]).cursor : ℚ) / (([['a']] : List Str).length : ℚ) ∧
    0 ≤ progressFraction [['a']] (initState [['a']]) ∧
    progressFraction [['a']] (initState [['a']]) ≤ 1 :=
  progressFractionUnitInterval [['a']] (initState [['a']]) Reachable.init
    (by decide)

/-- C5: once the session is complete (cursor equal to the word count),
submitting any further hypothesis changes nothing; the embedding is a
total function, so no exception can be raised. -/
theorem submitCompleteIsNoOp (words : List Str) (st : SessionState) (t : Str)
    (h : Reachable words st) (hc : st.cursor = words.length) :
    processSpokenWords words st t = st :=
  processSpokenWords_complete_noop words st t h hc

/-- Witness for C5: after reading the single word of a one-word text the
session is complete and a further submission is a no-op. -/
theorem submitCompleteIsNoOp_witness :
    processSpokenWords [['a']]
        (processSpokenWords [['a']] (initState [['a']]) ['a']) ['b']
      = processSpokenWords [['a']] (initState [['a']]) ['a'] :=
  submitCompleteIsNoOp [['a']]
    (processSpokenWords [['a']] (initState [['a']]) ['a']) ['b']
    (Reachable.submit _ _ Reachable.init) (by decide)

/-- C9: wordsMatch is not symmetric, because the tier thresholds are
chosen by the length of the expected token: abc spoken for expected ab
passes the short-word tier at similarity two thirds, while ab spoken for
expected abc needs the 0.8 tier and fails. -/
theorem matchesNotSymmetric :
    wordsMatch ['a','b','c'] ['a','b'] = true ∧
    wordsMatch ['a','b'] ['a','b','c'] = false := by
  constructor
  · rw [wordsMatch_eq_wordsMatchB]
    decide
  · rw [wordsMatch_eq_wordsMatchB]
    decide

/-- C10: a submission never moves the cursor backwards and never touches
the status of an index strictly below the previous cursor; in particular
a positive cursor stays positive, and only the reset operation returns
the cursor to zero. -/
theorem submitFrameEffect (words : List Str) (st : SessionState) (t : Str) :
    st.cursor ≤ (processSpokenWords words st t).cursor ∧
    (∀ i, i < st.cursor →
      (processSpokenWords words st t).statuses[i]? = st.statuses[i]?) ∧
    (0 < st.cursor → 0 < (processSpokenWords words st t).cursor) ∧
    (handleRestart words st).cursor = 0 := by
  obtain ⟨h1, h2⟩ := processSpokenWords_frame words st t
  exact ⟨h1, h2, fun hpos => lt_of_lt_of_le hpos h1, rfl⟩

/-- Witness for C10 on a concrete mid-progress state. -/
theorem submitFrameEffect_witness :
    (⟨1, [WordStatus.correct, WordStatus.current]⟩ : SessionState).cursor ≤
      (processSpokenWords [['e','r','a'], ['u','m','a']]
        ⟨1, [WordStatus.correct, WordStatus.current]⟩ ['x']).cursor ∧
    (processSpokenWords [['e','r','a'], ['u','m','a']]
        ⟨1, [WordStatus.correct, WordStatus.current]⟩ ['x']).statuses[0]? =
      (⟨1, [WordStatus.correct, WordStatus.current]⟩ : SessionState).statuses[0]? := by
  obtain ⟨h1, h2, -, -⟩ := submitFrameEffect [['e','r','a'], ['u','m','a']]
    ⟨1, [WordStatus.correct, WordStatus.current]⟩ ['x']
  exact ⟨h1, h2 0 (by decide)⟩


/-- C3: wordsMatch implements exactly the tiered algorithm of the
specification stated with the classic edit distance, and in particular a
length difference above two is rejected outright, regardless of any
substring containment between the tokens. -/
theorem wordsMatchTieredAlgorithm (spoken expected : Str) :
    wordsMatch spoken expected = wordsMatchSpec spoken expected ∧
    (2 < lengthDiffN (normalizeText spoken).length (normalizeText expected).length →
      wordsMatch spoken expected = false) := by
  refine ⟨wordsMatch_eq_wordsMatchSpec spoken expected, ?_⟩
  intro hd
  rw [wordsMatch]
  have hne : ¬(normalizeText spoken = normalizeText expected) := by
    intro he
    rw [he, lengthDiffN] at hd
    omega
  rw [if_neg hne]
  have hn1 : ¬((normalizeText expected).length ≤ 2 ∧
      lengthDiffN (normalizeText spoken).length (normalizeText expected).length ≤ 2 ∧
      calculateSimilarity (normalizeText spoken) (normalizeText expected) ≥ 3 / 5) := by
    rintro ⟨-, h2, -⟩
    omega
  have hn2 : ¬(lengthDiffN (normalizeText spoken).length
        (normalizeText expected).length ≤ 2 ∧
      calculateSimilarity (normalizeText spoken) (normalizeText expected) ≥ 4 / 5) := by
    rintro ⟨h2, -⟩
    omega
  rw [if_neg hn1, if_neg hn2]

/-- Witness for C3: a tier-equivalence instance and a rejected pair whose
normalized lengths differ by four. -/
theorem wordsMatchTieredAlgorithm_witness :
    wordsMatch ['a','b'] ['e','r','a'] = wordsMatchSpec ['a','b'] ['e','r','a'] ∧
    wordsMatch ['a'] ['t','a','r','t','a'] = false := by
  refine ⟨(wordsMatchTieredAlgorithm ['a','b'] ['e','r','a']).1, ?_⟩
  exact (wordsMatchTieredAlgorithm ['a'] ['t','a','r','t','a']).2 (by decide)

/-- C6: calculateSimilarity returns 1 on equal strings, 0 when exactly
one side is empty, and otherwise one minus the classic unit-cost
Levenshtein distance divided by the longer length; the result always
lies in the unit interval. -/
theorem similarityFormula (a b : Str) :
    (a = b → calculateSimilarity a b = 1) ∧
    ((a.length = 0 ∧ b.length ≠ 0) ∨ (a.length ≠ 0 ∧ b.length = 0) →
      calculateSimilarity a b = 0) ∧
    (a ≠ b → a.length ≠ 0 → b.length ≠ 0 →
      calculateSimilarity a b =
        1 - (editDistance a b : ℚ) / ((max a.length b.length : ℕ) : ℚ)) ∧
    0 ≤ calculateSimilarity a b ∧ calculateSimilarity a b ≤ 1 := by
  refine ⟨?_, ?_, ?_, ?_, ?_⟩
  · intro h
    rw [calculateSimilarity, if_pos h]
  · intro hz
    have hne : a ≠ b := by
      intro he
      subst he
      rcases hz with ⟨h1, h2⟩ | ⟨h1, h2⟩ <;> omega
    have hz' : a.length = 0 ∨ b.length = 0 := by
      rcases hz with ⟨h1, -⟩ | ⟨-, h2⟩
      · exact Or.inl h1
      · exact Or.inr h2
    rw [calculateSimilarity, if_neg hne, if_pos hz']
  · intro hne ha hb
    rw [calculateSimilarity_eq, similaritySpec, if_neg hne,
      if_neg (by rintro (h | h) <;> omega)]
  · rw [calculateSimilarity_eq]
    exact similaritySpec_nonneg a b
  · rw [calculateSimilarity_eq]
    exact similaritySpec_le_one a b

/-- Witness for C6 on the pair abc and ab. -/
theorem similarityFormula_witness :
    calculateSimilarity ['a','b','c'] ['a','b'] =
      1 - (editDistance ['a','b','c'] ['a','b'] : ℚ) /
        ((max (['a','b','c'] : Str).length (['a','b'] : Str).length : ℕ) : ℚ) ∧
    0 ≤ calculateSimilarity ['a','b','c'] ['a','b'] := by
  obtain ⟨-, -, h3, h4, -⟩ := similarityFormula ['a','b','c'] ['a','b']
  exact ⟨h3 (by decide) (by decide) (by decide), h4⟩

/-- C7: calculateSimilarity is symmetric in its two arguments, and every
string has similarity 1 with itself. -/
theorem similaritySymmetric (a b : Str) :
    calculateSimilarity a b = calculateSimilarity b a ∧
    (a ≠ [] → calculateSimilarity a a = 1) := by
  constructor
  · rw [calculateSimilarity_eq, calculateSimilarity_eq, similaritySpec, similaritySpec]
    by_cases hab : a = b
    · rw [if_pos hab, if_pos hab.symm]
    · rw [if_neg hab, if_neg (show ¬(b = a) from fun h => hab h.symm)]
      by_cases hz : a.length = 0 ∨ b.length = 0
      · rw [if_pos hz,
          if_pos (show b.length = 0 ∨ a.length = 0 from Or.symm hz)]
      · rw [if_neg hz,
          if_neg (show ¬(b.length = 0 ∨ a.length = 0) from fun h => hz (Or.symm h))]
        rw [editDistance_comm, max_comm]
  · intro _
    rw [calculateSimilarity, if_pos rfl]

/-- Witness for C7 on concrete one-letter strings. -/
theorem similaritySymmetric_witness :
    calculateSimilarity ['a'] ['b'] = calculateSimilarity ['b'] ['a'] ∧
    calculateSimilarity ['a'] ['a'] = 1 :=
  ⟨(similaritySymmetric ['a'] ['b']).1, (similaritySymmetric ['a'] ['a']).2 (by decide)⟩


theorem char_toNat_ofNat (n : ℕ) (h : n < 55296) : (Char.ofNat n).toNat = n := by
  unfold Char.ofNat
  rw [dif_pos (Or.inl h)]
  rfl

theorem lookup_eq_none_of_ne {β : Type} :
    ∀ (t : List (Char × β)) (c : Char), (∀ p ∈ t, p.1 ≠ c) → t.lookup c = none := by
  intro t
  induction t with
  | nil => intro c _; rfl
  | cons p t' ih =>
      intro c h
      obtain ⟨k, v⟩ := p
      have hk : k ≠ c := h (k, v) (List.mem_cons_self _ _)
      have hbeq : (c == k) = false := by
        rw [beq_eq_false_iff_ne]
        exact fun he => hk he.symm
      rw [List.lookup, hbeq]
      exact ih c (fun q hq => h q (List.mem_cons_of_mem _ hq))

theorem lookup_some_mem {β : Type} :
    ∀ (t : List (Char × β)) (c : Char) (v : β), t.lookup c = some v → (c, v) ∈ t := by
  intro t
  induction t with
  | nil =>
      intro c v h
      exact absurd h (by simp [List.lookup])
  | cons p t' ih =>
      intro c v h
      obtain ⟨k, w⟩ := p
      rw [List.lookup] at h
      cases hbeq : c == k with
      | true =>
          rw [hbeq] at h
          have h' : some w = some v := h
          have hck : c = k := eq_of_beq hbeq
          rw [hck, ← Option.some.inj h']
          exact List.mem_cons_self _ _
      | false =>
          rw [hbeq] at h
          exact List.mem_cons_of_mem _ (ih c v h)

theorem nfd_keys_gt : ∀ p ∈ nfdPairs, 122 < p.1.toNat := by decide

theorem nfd_values_not_upper :
    ∀ p ∈ nfdPairs, ∀ d ∈ p.2, ¬(65 ≤ d.toNat ∧ d.toNat ≤ 90) := by decide

theorem lower_values_nfd_not_upper :
    ∀ p ∈ lowerPairs, ∀ d ∈ nfdChar p.2, ¬(65 ≤ d.toNat ∧ d.toNat ≤ 90) := by decide

theorem lower_keys_not_wordspace :
    ∀ p ∈ lowerPairs, (isWordChar p.1 || isSpaceChar p.1) = false := by decide

theorem nfd_keys_not_wordspace :
    ∀ p ∈ nfdPairs, (isWordChar p.1 || isSpaceChar p.1) = false := by decide

theorem nfd_output_not_upper (c d : Char) (hd : d ∈ nfdChar (jsToLower c)) :
    ¬(65 ≤ d.toNat ∧ d.toNat ≤ 90) := by
  rw [jsToLower] at hd
  by_cases hup : 65 ≤ c.toNat ∧ c.toNat ≤ 90
  · rw [if_pos hup] at hd
    have hx : (Char.ofNat (c.toNat + 32)).toNat = c.toNat + 32 :=
      char_toNat_ofNat _ (by omega)
    have hnone : nfdPairs.lookup (Char.ofNat (c.toNat + 32)) = none := by
      apply lookup_eq_none_of_ne
      intro p hp heq
      have hk := nfd_keys_gt p hp
      rw [heq, hx] at hk
      omega
    rw [nfdChar, hnone] at hd
    simp only [Option.getD_none, List.mem_singleton] at hd
    subst hd
    rw [hx]
    omega
  · rw [if_neg hup] at hd
    cases hlk : lowerPairs.lookup c with
    | some v =>
        rw [hlk] at hd
        exact lower_values_nfd_not_upper (c, v) (lookup_some_mem _ _ _ hlk) d hd
    | none =>
        rw [hlk] at hd
        simp only [Option.getD_none] at hd
        rw [nfdChar] at hd
        cases hlk2 : nfdPairs.lookup c with
        | some l =>
            rw [hlk2] at hd
            exact nfd_values_not_upper (c, l) (lookup_some_mem _ _ _ hlk2) d hd
        | none =>
            rw [hlk2] at hd
            simp only [Option.getD_none, List.mem_singleton] at hd
            subst hd
            exact hup


theorem jsToLower_fix (c : Char) (h1 : (isWordChar c || isSpaceChar c) = true)
    (h2 : ¬(65 ≤ c.toNat ∧ c.toNat ≤ 90)) : jsToLower c = c := by
  rw [jsToLower, if_neg h2]
  rw [lookup_eq_none_of_ne]
  · rfl
  · intro p hp heq
    have := lower_keys_not_wordspace p hp
    rw [heq, h1] at this
    exact Bool.noConfusion this

theorem nfdChar_fix (c : Char) (h1 : (isWordChar c || isSpaceChar c) = true) :
    nfdChar c = [c] := by
  rw [nfdChar, lookup_eq_none_of_ne]
  · rfl
  · intro p hp heq
    have := nfd_keys_not_wordspace p hp
    rw [heq, h1] at this
    exact Bool.noConfusion this

theorem not_combining_of_wordspace (c : Char)
    (h1 : (isWordChar c || isSpaceChar c) = true) : isCombining c = false := by
  simp only [isWordChar, isSpaceChar, Bool.or_eq_true, decide_eq_true_eq] at h1
  simp only [isCombining, decide_eq_false_iff_not]
  omega

theorem map_eq_self_of (l : Str) (f : Char → Char) (h : ∀ c ∈ l, f c = c) :
    l.map f = l := by
  induction l with
  | nil => rfl
  | cons a t ih =>
      rw [List.map_cons, h a (List.mem_cons_self _ _),
        ih (fun c hc => h c (List.mem_cons_of_mem _ hc))]

theorem flatMap_eq_self_of (l : Str) (h : ∀ c ∈ l, nfdChar c = [c]) :
    l.flatMap nfdChar = l := by
  induction l with
  | nil => rfl
  | cons a t ih =>
      rw [List.flatMap_cons, h a (List.mem_cons_self _ _),
        ih (fun c hc => h c (List.mem_cons_of_mem _ hc))]
      rfl

theorem dropWhile_idem (p : Char → Bool) (l : Str) :
    (l.dropWhile p).dropWhile p = l.dropWhile p := by
  induction l with
  | nil => rfl
  | cons a t ih =>
      by_cases hpa : p a = true
      · rw [List.dropWhile_cons, if_pos hpa, ih]
      · rw [List.dropWhile_cons, if_neg hpa, List.dropWhile_cons, if_neg hpa]

theorem dropWhile_head_false (p : Char → Bool) :
    ∀ (l : Str) (c : Char) (t : Str), l.dropWhile p = c :: t → p c = false := by
  intro l
  induction l with
  | nil => intro c t h; exact List.noConfusion h
  | cons a l' ih =>
      intro c t h
      by_cases hpa : p a = true
      · rw [List.dropWhile_cons, if_pos hpa] at h
        exact ih c t h
      · rw [List.dropWhile_cons, if_neg hpa] at h
        rw [← (List.cons.inj h).1]
        exact Bool.not_eq_true _ ▸ (by simpa using hpa)

theorem trimEnd_idem (l : Str) : trimEnd (trimEnd l) = trimEnd l := by
  rw [trimEnd, trimEnd, List.reverse_reverse, dropWhile_idem]

theorem dropWhile_trimEnd_dropWhile (l : Str) :
    (trimEnd (l.dropWhile isSpaceChar)).dropWhile isSpaceChar
      = trimEnd (l.dropWhile isSpaceChar) := by
  cases hB : l.dropWhile isSpaceChar with
  | nil => rfl
  | cons c B' =>
      have hpc : isSpaceChar c = false := dropWhile_head_false isSpaceChar l c B' hB
      rw [trimEnd, List.reverse_cons, List.dropWhile_append]
      by_cases he : (B'.reverse.dropWhile isSpaceChar).isEmpty = true
      · rw [if_pos he]
        simp [List.dropWhile_cons, hpc]
      · rw [if_neg he]
        rw [List.reverse_append]
        simp [List.dropWhile_cons, hpc]

theorem trim_idem (l : Str) : trim (trim l) = trim l := by
  rw [trim, trim, dropWhile_trimEnd_dropWhile, trimEnd_idem]


theorem mem_normalizeText (s : Str) (c : Char) (h : c ∈ normalizeText s) :
    (isWordChar c || isSpaceChar c) = true ∧ ¬(65 ≤ c.toNat ∧ c.toNat ≤ 90) := by
  rw [normalizeText, trim, trimEnd] at h
  have h1 : c ∈ ((((s.map jsToLower).flatMap nfdChar).filter
      (fun c => !(isCombining c))).filter
      (fun c => isWordChar c || isSpaceChar c)).dropWhile isSpaceChar := by
    have h' := List.mem_reverse.mp h
    have h'' := (List.dropWhile_sublist isSpaceChar).subset h'
    exact List.mem_reverse.mp h''
  have h2 := (List.dropWhile_sublist isSpaceChar).subset h1
  obtain ⟨h3, hP⟩ := List.mem_filter.mp h2
  obtain ⟨h4, -⟩ := List.mem_filter.mp h3
  obtain ⟨x, hx, hcx⟩ := List.mem_flatMap.mp h4
  obtain ⟨c0, -, hc0⟩ := List.mem_map.mp hx
  subst hc0
  exact ⟨hP, nfd_output_not_upper c0 c hcx⟩

/-- C8: normalizeText maps the empty string to the empty string, is a
total function (it is a plain recursive-free definition), and is
idempotent: once a token is lowercased, decomposed, stripped of marks and
punctuation and trimmed, a second pass changes nothing. -/
theorem normalizeIdempotent :
    normalizeText ([] : Str) = [] ∧
    ∀ s : Str, normalizeText (normalizeText s) = normalizeText s := by
  refine ⟨rfl, ?_⟩
  intro s
  have hmem := mem_normalizeText s
  conv_lhs => rw [normalizeText]
  have hmap : (normalizeText s).map jsToLower = normalizeText s :=
    map_eq_self_of _ _ (fun c hc => jsToLower_fix c (hmem c hc).1 (hmem c hc).2)
  rw [hmap]
  have hflat : (normalizeText s).flatMap nfdChar = normalizeText s :=
    flatMap_eq_self_of _ (fun c hc => nfdChar_fix c (hmem c hc).1)
  rw [hflat]
  have hfil1 : (normalizeText s).filter (fun c => !(isCombining c)) = normalizeText s := by
    rw [List.filter_eq_self]
    intro c hc
    rw [not_combining_of_wordspace c (hmem c hc).1]
    rfl
  rw [hfil1]
  have hfil2 : (normalizeText s).filter
      (fun c => isWordChar c || isSpaceChar c) = normalizeText s := by
    rw [List.filter_eq_self]
    intro c hc
    exact (hmem c hc).1
  rw [hfil2]
  conv_lhs => rw [normalizeText]
  conv_rhs => rw [normalizeText]
  exact trim_idem _

end LeiaComigo
